import Mathlib

/-!
# draw_cube: matrix library, animation clock and per-frame transform

A shallow embedding of `src/draw_cube.cpp`.

* `float` and `double` values are taken as exact numbers, except in
  `animation_float`, which rounds every floating operation of `animation` to
  its binary32 or binary64 format.  The matrix library is written over an
  arbitrary field `α`, so it can be evaluated over `ℚ` and reasoned about
  over `ℝ`.
* The C library functions `cos` and `sin` and the constant `M_PI` are not part
  of the program; the functions that use them take them as parameters
  (`cos sin : α → α`, `pi : α`).  The theorems instantiate them with
  `Real.cos`, `Real.sin` and `Real.pi`.
* The time source `glfwGetTime()` is an explicit argument `now` (seconds).
* C unsigned integers are natural numbers reduced modulo `2 ^ w`.
* The arrays `vertices` and `triangle_indices` are lists with the entries of
  the source; the static variables of `update_fps` are an explicit state.
* The life of the GPU objects is the list of the creating and releasing calls
  that `main` makes, in order.
-/

namespace DrawCube

/-! ## Matrix math utilities -/

/-- The struct `mat4f`: sixteen components, declared column by column
(field `x<i><j>` is row `i`, column `j`). -/
@[ext]
structure mat4f (α : Type) where
  x11 : α
  x21 : α
  x31 : α
  x41 : α
  x12 : α
  x22 : α
  x32 : α
  x42 : α
  x13 : α
  x23 : α
  x33 : α
  x43 : α
  x14 : α
  x24 : α
  x34 : α
  x44 : α
deriving DecidableEq, Repr

variable {α : Type} [Field α]

/-- The function `mat4f_gl`: the address of the first field, that is the
sixteen components in declaration (memory) order. -/
def mat4f_gl (m : mat4f α) : List α :=
  [m.x11, m.x21, m.x31, m.x41,
   m.x12, m.x22, m.x32, m.x42,
   m.x13, m.x23, m.x33, m.x43,
   m.x14, m.x24, m.x34, m.x44]

/-- The global `mat4f_identity`. -/
def mat4f_identity : mat4f α :=
  ⟨1, 0, 0, 0,
   0, 1, 0, 0,
   0, 0, 1, 0,
   0, 0, 0, 1⟩

/-- The function `mat4f_multiply`. -/
def mat4f_multiply (a b : mat4f α) : mat4f α :=
  ⟨a.x11 * b.x11 + a.x12 * b.x21 + a.x13 * b.x31 + a.x14 * b.x41,
   a.x21 * b.x11 + a.x22 * b.x21 + a.x23 * b.x31 + a.x24 * b.x41,
   a.x31 * b.x11 + a.x32 * b.x21 + a.x33 * b.x31 + a.x34 * b.x41,
   a.x41 * b.x11 + a.x42 * b.x21 + a.x43 * b.x31 + a.x44 * b.x41,

   a.x11 * b.x12 + a.x12 * b.x22 + a.x13 * b.x32 + a.x14 * b.x42,
   a.x21 * b.x12 + a.x22 * b.x22 + a.x23 * b.x32 + a.x24 * b.x42,
   a.x31 * b.x12 + a.x32 * b.x22 + a.x33 * b.x32 + a.x34 * b.x42,
   a.x41 * b.x12 + a.x42 * b.x22 + a.x43 * b.x32 + a.x44 * b.x42,

   a.x11 * b.x13 + a.x12 * b.x23 + a.x13 * b.x33 + a.x14 * b.x43,
   a.x21 * b.x13 + a.x22 * b.x23 + a.x23 * b.x33 + a.x24 * b.x43,
   a.x31 * b.x13 + a.x32 * b.x23 + a.x33 * b.x33 + a.x34 * b.x43,
   a.x41 * b.x13 + a.x42 * b.x23 + a.x43 * b.x33 + a.x44 * b.x43,

   a.x11 * b.x14 + a.x12 * b.x24 + a.x13 * b.x34 + a.x14 * b.x44,
   a.x21 * b.x14 + a.x22 * b.x24 + a.x23 * b.x34 + a.x24 * b.x44,
   a.x31 * b.x14 + a.x32 * b.x24 + a.x33 * b.x34 + a.x34 * b.x44,
   a.x41 * b.x14 + a.x42 * b.x24 + a.x43 * b.x34 + a.x44 * b.x44⟩

/-- The function `mat4f_scale`. -/
def mat4f_scale (x y z : α) : mat4f α :=
  ⟨x, 0, 0, 0,
   0, y, 0, 0,
   0, 0, z, 0,
   0, 0, 0, 1⟩

/-- The function `mat4f_translation`. -/
def mat4f_translation (x y z : α) : mat4f α :=
  ⟨1, 0, 0, 0,
   0, 1, 0, 0,
   0, 0, 1, 0,
   x, y, z, 1⟩

/-- The function `mat4f_rotate_z`; `cos` and `sin` are the library functions. -/
def mat4f_rotate_z (cos sin : α → α) (theta : α) : mat4f α :=
  ⟨ cos theta, sin theta, 0, 0,
   -sin theta, cos theta, 0, 0,
            0,         0, 1, 0,
            0,         0, 0, 1⟩

/-- The function `mat4f_rotate_y`; `cos` and `sin` are the library functions. -/
def mat4f_rotate_y (cos sin : α → α) (theta : α) : mat4f α :=
  ⟨cos theta, 0, -sin theta, 0,
           0, 1,          0, 0,
   sin theta, 0,  cos theta, 0,
           0, 0,          0, 1⟩

/-- The function `mat4f_rotate_x`; `cos` and `sin` are the library functions. -/
def mat4f_rotate_x (cos sin : α → α) (theta : α) : mat4f α :=
  ⟨1, 0, 0, 0,
   0, cos theta, sin theta, 0,
   0, -sin theta, cos theta, 0,
   0, 0, 0, 1⟩

/-- The function `mat4f_perspective`. -/
def mat4f_perspective : mat4f α :=
  let r : α := 0.5
  let t : α := 0.5
  let n : α := 1
  let f : α := 5
  ⟨n / r, 0, 0, 0,
   0, n / t, 0, 0,
   0, 0, (-f - n) / (f - n), -1,
   0, 0, (2 * f * n) / (n - f), 0⟩

/-- Row `i`, column `j` of a matrix (both counted from 0): the field
`x<i+1><j+1>` of the struct. -/
def mat4f.entry (m : mat4f α) : Fin 4 → Fin 4 → α
  | 0, 0 => m.x11 | 0, 1 => m.x12 | 0, 2 => m.x13 | 0, 3 => m.x14
  | 1, 0 => m.x21 | 1, 1 => m.x22 | 1, 2 => m.x23 | 1, 3 => m.x24
  | 2, 0 => m.x31 | 2, 1 => m.x32 | 2, 2 => m.x33 | 2, 3 => m.x34
  | 3, 0 => m.x41 | 3, 1 => m.x42 | 3, 2 => m.x43 | 3, 3 => m.x44

/-- The struct read as a matrix of the mathematical library. -/
def mat4f.toMatrix (m : mat4f α) : Matrix (Fin 4) (Fin 4) α :=
  Matrix.of (fun i j => m.entry i j)

/-! ## Animation clock -/

/-- Conversion of a floating value to a `w`-bit C unsigned integer: the
fractional part is discarded and the value is kept modulo `2 ^ w`. -/
def to_unsigned (w : ℕ) (x : ℚ) : ℕ :=
  ⌊x⌋₊ % 2 ^ w

/-- The function `animation` in exact arithmetic; `now` is the value of
`glfwGetTime()`.  `ms_time` is an `unsigned long` (64 bits), `ms_duration` an
`unsigned int` (32 bits).  The integer remainder by zero has no value: the
result is `none`.  The floating operations are not rounded here; they are in
`animation_float`. -/
def animation (now : ℚ) (duration : ℚ) : Option ℚ :=
  let ms_time : ℕ := to_unsigned 64 (now * 1000)
  let ms_duration : ℕ := to_unsigned 32 (duration * 1000)
  if ms_duration = 0 then none
  else
    let ms_position : ℚ := ((ms_time % ms_duration : ℕ) : ℚ)
    some (ms_position / (ms_duration : ℚ))

/-- Rounding of a number to the nearest integer, ties to the even one. -/
def round_half_even (m : ℚ) : ℤ :=
  let f : ℤ := ⌊m⌋
  if m - f < 1 / 2 then f
  else if 1 / 2 < m - f then f + 1
  else if f % 2 = 0 then f
  else f + 1

/-- The spacing of the binary floating values with a `p`-bit significand
around `q`: `2 ^ (e + 1 - p)` for `2 ^ e <= q < 2 ^ (e + 1)`. -/
def ulp (p : ℕ) (q : ℚ) : ℚ :=
  2 ^ (Int.log 2 q + 1 - (p : ℤ))

/-- Rounding to the nearest binary floating value with a `p`-bit significand,
ties to even: `p = 24` is `float`, `p = 53` is `double`.  The exponent range
is not bounded; the values of `animation` stay far inside it. -/
def round_fp (p : ℕ) (q : ℚ) : ℚ :=
  if q = 0 then 0
  else if 0 < q then (round_half_even (q / ulp p q) : ℚ) * ulp p q
  else -((round_half_even (-q / ulp p (-q)) : ℚ) * ulp p (-q))

/-- The function `animation` with the rounding of its floating operations:
the `double` product `glfwGetTime() * 1000`, the `float` product
`duration * 1000`, the conversions of the remainder and of `ms_duration` to
`float`, and the `float` quotient. -/
def animation_float (now : ℚ) (duration : ℚ) : Option ℚ :=
  let ms_time : ℕ := to_unsigned 64 (round_fp 53 (now * 1000))
  let ms_duration : ℕ := to_unsigned 32 (round_fp 24 (duration * 1000))
  if ms_duration = 0 then none
  else
    let ms_position : ℚ := round_fp 24 ((ms_time % ms_duration : ℕ) : ℚ)
    some (round_fp 24 (ms_position / round_fp 24 (ms_duration : ℚ)))

/-- The transform built in `render` (lines 407 to 411); `t` is the value
returned by `animation(4)` and `pi` the constant `pi`. -/
def render_transform (cos sin : α → α) (pi : α) (t : α) : mat4f α :=
  let transform : mat4f α := mat4f_identity
  let transform := mat4f_multiply transform mat4f_perspective
  let transform := mat4f_multiply transform (mat4f_translation 0 0 (-3))
  let transform := mat4f_multiply transform (mat4f_rotate_x cos sin (0.15 * pi))
  let transform := mat4f_multiply transform (mat4f_rotate_y cos sin (2 * pi * t))
  transform

/-- The transform that `render` uploads when the time source reads `now`. -/
def render (cos sin : α → α) (pi : α) (now : ℚ) : Option (mat4f α) :=
  match animation now 4 with
  | none => none
  | some t => some (render_transform cos sin pi ((t : ℚ) : α))

/-! ## Constants and data -/

/-- The constant `triangles`: the number of triangles rendered. -/
def triangles : ℕ := 6 * 2

/-- The array `vertices` of `initialize`: three floats for each position. -/
def vertices : List ℚ :=
  [ -- Front face
     0.5,  0.5,  0.5,
    -0.5,  0.5,  0.5,
    -0.5, -0.5,  0.5,
     0.5, -0.5,  0.5,
    -- Back face
     0.5,  0.5, -0.5,
    -0.5,  0.5, -0.5,
    -0.5, -0.5, -0.5,
     0.5, -0.5, -0.5 ]

/-- The array `triangle_indices` of `initialize` (`unsigned short` entries). -/
def triangle_indices : List ℕ :=
  [ -- Front
    0, 1, 2,
    2, 3, 0,
    -- Right
    0, 3, 7,
    7, 4, 0,
    -- Bottom
    2, 6, 7,
    7, 3, 2,
    -- Left
    1, 5, 6,
    6, 2, 1,
    -- Back
    4, 7, 6,
    6, 5, 4,
    -- Top
    5, 1, 0,
    0, 4, 5 ]

/-- A point or direction of space. -/
abbrev vec3 := ℚ × ℚ × ℚ

/-- The position attribute of vertex `i`: three consecutive floats of
`vertices` (attribute size 3, stride 0). -/
def position (i : ℕ) : vec3 :=
  (vertices.getD (3 * i) 0, vertices.getD (3 * i + 1) 0, vertices.getD (3 * i + 2) 0)

/-- The three indices of triangle `k`, as drawn by `glDrawElements` in
`GL_TRIANGLES` mode: entries `3k`, `3k+1`, `3k+2` of `triangle_indices`. -/
def triangle (k : ℕ) : List ℕ :=
  [triangle_indices.getD (3 * k) 0, triangle_indices.getD (3 * k + 1) 0,
   triangle_indices.getD (3 * k + 2) 0]

/-- Coordinate `a` (0, 1 or 2) of a point. -/
def coord (p : vec3) : Fin 3 → ℚ
  | 0 => p.1
  | 1 => p.2.1
  | 2 => p.2.2

/-- Difference of two points. -/
def vsub (p q : vec3) : vec3 :=
  (p.1 - q.1, p.2.1 - q.2.1, p.2.2 - q.2.2)

/-- Cross product. -/
def cross (p q : vec3) : vec3 :=
  (p.2.1 * q.2.2 - p.2.2 * q.2.1, p.2.2 * q.1 - p.1 * q.2.2, p.1 * q.2.1 - p.2.1 * q.1)

/-- Dot product. -/
def dot (p q : vec3) : ℚ :=
  p.1 * q.1 + p.2.1 * q.2.1 + p.2.2 * q.2.2

/-- Centroid of three points. -/
def centroid (p q r : vec3) : vec3 :=
  ((p.1 + q.1 + r.1) / 3, (p.2.1 + q.2.1 + r.2.1) / 3, (p.2.2 + q.2.2 + r.2.2) / 3)

/-- The vertices that the two triangles of pair `f` (triangles `2f` and
`2f+1`) have in common. -/
def shared (f : ℕ) : List ℕ :=
  (triangle (2 * f)).filter (fun v => v ∈ triangle (2 * f + 1))

/-- The distinct vertices of the two triangles of pair `f`. -/
def corners (f : ℕ) : List ℕ :=
  (triangle (2 * f) ++ triangle (2 * f + 1)).dedup

/-- All the vertices of pair `f` have coordinate `a` equal to `c`: they lie on
the face `coordinate a = c` of the cube. -/
def on_face (f : ℕ) (a : Fin 3) (c : ℚ) : Prop :=
  ∀ v ∈ corners f, coord (position v) a = c

instance (f : ℕ) (a : Fin 3) (c : ℚ) : Decidable (on_face f a c) := by
  unfold on_face
  infer_instance

/-- The standard OpenGL frustum matrix for the planes `left`, `right`, `bottom`,
`top`, `near`, `far` (the formula the specification refers to), in the field
order of the struct. -/
def frustum_spec (l r b t n f : α) : mat4f α :=
  ⟨2 * n / (r - l), 0, 0, 0,
   0, 2 * n / (t - b), 0, 0,
   (r + l) / (r - l), (t + b) / (t - b), -(f + n) / (f - n), -1,
   0, 0, -(2 * f * n) / (f - n), 0⟩

/-- The vertex shader, `gl_Position = transform * vec4(pos, 1.0)`, for the
transform built in `render` at progress `t` and the position of vertex `i`:
the clip-space point `(x, y, z, w)` of that vertex. -/
def gl_Position (cos sin : α → α) (pi t : α) (i : ℕ) : Fin 4 → α :=
  (render_transform cos sin pi t).toMatrix.mulVec
    ![((position i).1 : α), ((position i).2.1 : α), ((position i).2.2 : α), 1]

/-! ## Frame counter -/

/-- The two static variables of `update_fps`. -/
structure fps_state where
  last_update_time : ℚ
  frames_since_last_update : ℤ
deriving DecidableEq, Repr

/-- The initial values of the static variables. -/
def fps_initial : fps_state := ⟨0, 0⟩

/-- The function `update_fps`; `now` is the value of `glfwGetTime()`.  The
result is the new value of the static variables and, when the window title is
set, the number of frames per second written in it. -/
def update_fps (s : fps_state) (now : ℚ) : fps_state × Option ℚ :=
  let frames_since_last_update := s.frames_since_last_update + 1
  if now - s.last_update_time > 0.25 then
    let fps : ℚ := (frames_since_last_update : ℚ) / (now - s.last_update_time)
    (⟨now, 0⟩, some fps)
  else
    (⟨s.last_update_time, frames_since_last_update⟩, none)

/-- The time readings at which the window title is set, over a sequence of
calls of `update_fps` with the given readings. -/
def title_update_times : fps_state → List ℚ → List ℚ
  | _, [] => []
  | s, now :: rest =>
    match (update_fps s now).2 with
    | some _ => now :: title_update_times (update_fps s now).1 rest
    | none => title_update_times (update_fps s now).1 rest

/-! ## Resources -/

/-- The GPU objects that the program creates. -/
inductive gl_object
  | vao
  | triangles_ebo
  | verticies_vbo
  | colors_vbo
  | vertexShader
  | fragmentShader
  | shaderProgram
deriving DecidableEq, Repr

/-- The calls of the program that matter for the life of a GPU object:
creation (`glGenVertexArrays`, `glGenBuffers`, `glCreateShader`,
`glCreateProgram`), release (`glDeleteVertexArrays`, `glDeleteBuffers`,
`glDeleteShader`, `glDeleteProgram`), one call of `render` in the loop, and
`glfwTerminate`. -/
inductive gl_call
  | create (o : gl_object)
  | release (o : gl_object)
  | render_frame
  | glfwTerminate
deriving DecidableEq, Repr

/-- The calls of `createShaderProgram`, in order. -/
def createShaderProgram : List gl_call :=
  [gl_call.create gl_object.vertexShader,
   gl_call.create gl_object.fragmentShader,
   gl_call.create gl_object.shaderProgram,
   gl_call.release gl_object.vertexShader,
   gl_call.release gl_object.fragmentShader]

/-- The calls of `initialize`, in order. -/
def initialize_calls : List gl_call :=
  [gl_call.create gl_object.vao,
   gl_call.create gl_object.triangles_ebo,
   gl_call.create gl_object.verticies_vbo,
   gl_call.create gl_object.colors_vbo]
  ++ createShaderProgram

/-- The calls of `main` and its exit code: `init_ok` and `window_ok` tell
whether `glfwInit` and `glfwCreateWindow` succeed, `frames` is the number of
iterations of the loop before the window is asked to close. -/
def main (init_ok window_ok : Bool) (frames : ℕ) : List gl_call × ℤ :=
  if !init_ok then ([], -1)
  else if !window_ok then ([gl_call.glfwTerminate], -1)
  else
    (initialize_calls
      ++ List.replicate frames gl_call.render_frame
      ++ [gl_call.release gl_object.vao,
          gl_call.release gl_object.shaderProgram,
          gl_call.glfwTerminate], 0)

/-! ## Auxiliary lemmas -/

/-- The code's product read as a matrix is the product of the two matrices. -/
theorem toMatrix_multiply (a b : mat4f α) :
    (mat4f_multiply a b).toMatrix = a.toMatrix * b.toMatrix := by
  ext i j
  rw [Matrix.mul_apply, Fin.sum_univ_four]
  fin_cases i <;> fin_cases j <;> rfl

/-- Multiplying the identity by a matrix on the right gives that matrix. -/
theorem identity_multiply (A : mat4f α) : mat4f_multiply mat4f_identity A = A := by
  ext <;> simp [mat4f_multiply, mat4f_identity]

/-- Multiplying a matrix by the identity on the right gives that matrix. -/
theorem multiply_identity (A : mat4f α) : mat4f_multiply A mat4f_identity = A := by
  ext <;> simp [mat4f_multiply, mat4f_identity]

/-- Associativity of the code's product over any field. -/
theorem multiply_assoc (A B C : mat4f α) :
    mat4f_multiply (mat4f_multiply A B) C = mat4f_multiply A (mat4f_multiply B C) := by
  ext <;> simp only [mat4f_multiply] <;> ring

/-- A rotation about the y axis by an angle with cosine 1 and sine 0 is the
identity. -/
theorem rotate_y_of_cos_sin (cos sin : α → α) (theta : α) (hc : cos theta = 1)
    (hs : sin theta = 0) : mat4f_rotate_y cos sin theta = mat4f_identity := by
  ext <;> simp [mat4f_rotate_y, mat4f_identity, hc, hs]

/-- Evaluation of a conversion: a value in `[n, n + 1)` with `n < 2 ^ w`
is converted to `n`. -/
theorem to_unsigned_eq (w : ℕ) (x : ℚ) (n : ℕ) (h1 : (n : ℚ) ≤ x) (h2 : x < n + 1)
    (h3 : n < 2 ^ w) : to_unsigned w x = n := by
  have hx : (0 : ℚ) ≤ x := le_trans (Nat.cast_nonneg n) h1
  have hf : ⌊x⌋₊ = n := (Nat.floor_eq_iff hx).mpr ⟨h1, h2⟩
  rw [to_unsigned, hf, Nat.mod_eq_of_lt h3]

/-- In range, the conversion to an unsigned integer is the integer part. -/
theorem to_unsigned_of_lt (w : ℕ) (x : ℚ) (h0 : 0 ≤ x) (h : x < 2 ^ w) :
    to_unsigned w x = ⌊x⌋₊ := by
  have hlt : ⌊x⌋₊ < 2 ^ w := by
    have : (⌊x⌋₊ : ℚ) < ((2 ^ w : ℕ) : ℚ) := by
      push_cast
      exact lt_of_le_of_lt (Nat.floor_le h0) h
    exact_mod_cast this
  rw [to_unsigned, Nat.mod_eq_of_lt hlt]

/-- Four seconds are 4000 milliseconds. -/
theorem ms_duration_four : to_unsigned 32 ((4 : ℚ) * 1000) = 4000 :=
  to_unsigned_eq 32 _ 4000 (by norm_num) (by norm_num) (by norm_num)

/-- Half a millisecond is 0 milliseconds. -/
theorem ms_duration_half_ms : to_unsigned 32 ((1 / 2000 : ℚ) * 1000) = 0 :=
  to_unsigned_eq 32 _ 0 (by norm_num) (by norm_num) (by norm_num)

/-- The value of `animation` when the duration has a non-zero millisecond count. -/
theorem animation_of_ne_zero (now duration : ℚ)
    (h : to_unsigned 32 (duration * 1000) ≠ 0) :
    animation now duration =
      some (((to_unsigned 64 (now * 1000) % to_unsigned 32 (duration * 1000) : ℕ) : ℚ)
        / (to_unsigned 32 (duration * 1000) : ℚ)) := by
  simp only [animation, if_neg h]

/-- The function `animation` has no value when the duration has a zero
millisecond count. -/
theorem animation_of_eq_zero (now duration : ℚ)
    (h : to_unsigned 32 (duration * 1000) = 0) : animation now duration = none := by
  simp only [animation, if_pos h]

/-- A matrix applied to a column vector, component by component. -/
theorem toMatrix_mulVec (m : mat4f α) (x y z w : α) :
    m.toMatrix.mulVec ![x, y, z, w] =
      ![m.x11 * x + m.x12 * y + m.x13 * z + m.x14 * w,
        m.x21 * x + m.x22 * y + m.x23 * z + m.x24 * w,
        m.x31 * x + m.x32 * y + m.x33 * z + m.x34 * w,
        m.x41 * x + m.x42 * y + m.x43 * z + m.x44 * w] := by
  funext i
  rw [Matrix.mulVec, Matrix.dotProduct, Fin.sum_univ_four]
  fin_cases i <;> rfl

/-- From any state, the first title update is more than 0.25 s after the stored
time stamp, and each later one more than 0.25 s after the one before. -/
theorem title_update_times_chain (nows : List ℚ) :
    ∀ s : fps_state,
      List.Chain (fun a b : ℚ => b - a > 0.25) s.last_update_time
        (title_update_times s nows) := by
  induction nows with
  | nil => intro s; exact List.Chain.nil
  | cons now rest ih =>
    intro s
    by_cases h : now - s.last_update_time > 0.25
    · have hu : update_fps s now
          = (⟨now, 0⟩, some (((s.frames_since_last_update + 1 : ℤ) : ℚ)
              / (now - s.last_update_time))) := by
        simp only [update_fps, if_pos h]
      simp only [title_update_times, hu]
      exact List.Chain.cons h (ih ⟨now, 0⟩)
    · have hu : update_fps s now
          = (⟨s.last_update_time, s.frames_since_last_update + 1⟩, none) := by
        simp only [update_fps, if_neg h]
      simp only [title_update_times, hu]
      exact ih ⟨s.last_update_time, s.frames_since_last_update + 1⟩

/-- The clip-space point that the transform of `render` gives for the point
`(a, b, d)`: spin about y, tilt about x, move 3 away, project. -/
theorem render_transform_mulVec (t a b d : ℝ) :
    (render_transform Real.cos Real.sin Real.pi t).toMatrix.mulVec ![a, b, d, 1] =
      ![2 * (Real.cos (2 * Real.pi * t) * a + Real.sin (2 * Real.pi * t) * d),
        2 * (Real.cos (0.15 * Real.pi) * b
          - Real.sin (0.15 * Real.pi)
            * (-Real.sin (2 * Real.pi * t) * a + Real.cos (2 * Real.pi * t) * d)),
        2 - 3 / 2 * (Real.sin (0.15 * Real.pi) * b
          + Real.cos (0.15 * Real.pi)
            * (-Real.sin (2 * Real.pi * t) * a + Real.cos (2 * Real.pi * t) * d)),
        3 - (Real.sin (0.15 * Real.pi) * b
          + Real.cos (0.15 * Real.pi)
            * (-Real.sin (2 * Real.pi * t) * a + Real.cos (2 * Real.pi * t) * d))] := by
  simp only [render_transform, identity_multiply, toMatrix_multiply, ← Matrix.mulVec_mulVec,
    toMatrix_mulVec]
  simp only [mat4f_rotate_y, mat4f_rotate_x, mat4f_translation, mat4f_perspective]
  funext i
  fin_cases i <;> dsimp <;> norm_num <;> ring

/-- A point at squared distance 3/4 from the origin, moved 3 away from the
camera and projected, lies inside the clip volume. -/
theorem clip_bounds_of_sq (x y z : ℝ) (h : x ^ 2 + y ^ 2 + z ^ 2 = 3 / 4) :
    0 < 3 - z ∧ |2 * x| ≤ 3 - z ∧ |2 * y| ≤ 3 - z ∧ |2 - 3 / 2 * z| ≤ 3 - z := by
  have hx : |x| ≤ 9 / 10 := abs_le.mpr ⟨by nlinarith [sq_nonneg y, sq_nonneg z],
    by nlinarith [sq_nonneg y, sq_nonneg z]⟩
  have hy : |y| ≤ 9 / 10 := abs_le.mpr ⟨by nlinarith [sq_nonneg x, sq_nonneg z],
    by nlinarith [sq_nonneg x, sq_nonneg z]⟩
  have hz : |z| ≤ 9 / 10 := abs_le.mpr ⟨by nlinarith [sq_nonneg x, sq_nonneg y],
    by nlinarith [sq_nonneg x, sq_nonneg y]⟩
  rw [abs_le] at hx hy hz
  refine ⟨by linarith, ?_, ?_, ?_⟩ <;> rw [abs_le] <;> constructor <;> linarith

/-- Spin and tilt keep the distance to the origin. -/
theorem rotate_keeps_norm (c s c1 s1 a b d : ℝ) (h : c ^ 2 + s ^ 2 = 1)
    (h1 : c1 ^ 2 + s1 ^ 2 = 1) :
    (c * a + s * d) ^ 2 + (c1 * b - s1 * (-s * a + c * d)) ^ 2
      + (s1 * b + c1 * (-s * a + c * d)) ^ 2 = a ^ 2 + b ^ 2 + d ^ 2 := by
  linear_combination (a ^ 2 + d ^ 2) * h + (b ^ 2 + (-s * a + c * d) ^ 2) * h1

/-- Every coordinate of each of the 8 positions has square 1/4. -/
theorem position_sq (i : Fin 8) :
    (position i.val).1 ^ 2 = 1 / 4 ∧ (position i.val).2.1 ^ 2 = 1 / 4
      ∧ (position i.val).2.2 ^ 2 = 1 / 4 := by
  revert i
  decide!

/-! ## Rounding -/

/-- The rounded value is the integer part or the integer part plus one. -/
theorem round_half_even_bounds (m : ℚ) :
    ⌊m⌋ ≤ round_half_even m ∧ round_half_even m ≤ ⌊m⌋ + 1 := by
  simp only [round_half_even]
  split_ifs <;> constructor <;> omega

/-- An integer rounds to itself. -/
theorem round_half_even_intCast (Y : ℤ) : round_half_even (Y : ℚ) = Y := by
  simp [round_half_even]

/-- Rounding to the nearest integer is monotone. -/
theorem round_half_even_mono {m₁ m₂ : ℚ} (h : m₁ ≤ m₂) :
    round_half_even m₁ ≤ round_half_even m₂ := by
  have hf : ⌊m₁⌋ ≤ ⌊m₂⌋ := Int.floor_mono h
  rcases lt_or_eq_of_le hf with hlt | heq
  · have h1 := (round_half_even_bounds m₁).2
    have h2 := (round_half_even_bounds m₂).1
    omega
  · simp only [round_half_even, heq]
    split_ifs <;> first | omega | (exfalso; linarith)

/-- The spacing is positive. -/
theorem ulp_pos (p : ℕ) (q : ℚ) : 0 < ulp p q := by
  unfold ulp
  positivity

/-- Rounding of a positive value. -/
theorem round_fp_of_pos (p : ℕ) {q : ℚ} (hq : 0 < q) :
    round_fp p q = (round_half_even (q / ulp p q) : ℚ) * ulp p q := by
  simp only [round_fp, if_neg (ne_of_gt hq), if_pos hq]

/-- A multiple of the spacing above a positive value is above its rounding. -/
theorem round_fp_le_of_le_grid (p : ℕ) {q : ℚ} (hq : 0 < q) (Y : ℤ)
    (h : q ≤ (Y : ℚ) * ulp p q) : round_fp p q ≤ (Y : ℚ) * ulp p q := by
  rw [round_fp_of_pos p hq]
  have hu := ulp_pos p q
  have hm : q / ulp p q ≤ (Y : ℚ) := (div_le_iff₀ hu).mpr h
  have := round_half_even_mono hm
  rw [round_half_even_intCast] at this
  have hc : ((round_half_even (q / ulp p q) : ℤ) : ℚ) ≤ (Y : ℚ) := by exact_mod_cast this
  exact mul_le_mul_of_nonneg_right hc hu.le

/-- A multiple of the spacing below a positive value is below its rounding. -/
theorem le_round_fp_of_grid_le (p : ℕ) {q : ℚ} (hq : 0 < q) (Y : ℤ)
    (h : (Y : ℚ) * ulp p q ≤ q) : (Y : ℚ) * ulp p q ≤ round_fp p q := by
  rw [round_fp_of_pos p hq]
  have hu := ulp_pos p q
  have hm : (Y : ℚ) ≤ q / ulp p q := (le_div_iff₀ hu).mpr h
  have := round_half_even_mono hm
  rw [round_half_even_intCast] at this
  have hc : (Y : ℚ) ≤ ((round_half_even (q / ulp p q) : ℤ) : ℚ) := by exact_mod_cast this
  exact mul_le_mul_of_nonneg_right hc hu.le

/-- A positive value is at least the power of 2 given by its binary exponent. -/
theorem two_zpow_log_le {q : ℚ} (hq : 0 < q) : (2 : ℚ) ^ Int.log 2 q ≤ q := by
  have := Int.zpow_log_le_self (b := 2) (r := q) (by norm_num) hq
  simpa using this

/-- A value is below the next power of 2 after its binary exponent. -/
theorem lt_two_zpow_log_succ (q : ℚ) : q < (2 : ℚ) ^ (Int.log 2 q + 1) := by
  have := Int.lt_zpow_succ_log_self (b := 2) (by norm_num) q
  simpa using this

/-- A positive value below `2 ^ x` has a binary exponent below `x`. -/
theorem log_lt_of_lt_two_zpow {q : ℚ} (hq : 0 < q) {x : ℤ} (h : q < (2 : ℚ) ^ x) :
    Int.log 2 q < x := by
  have := (Int.lt_zpow_iff_log_lt (b := 2) (by norm_num) hq (x := x)).mp (by simpa using h)
  exact this

/-- A value of at least `2 ^ x` has a binary exponent of at least `x`. -/
theorem le_log_of_two_zpow_le {q : ℚ} (hq : 0 < q) {x : ℤ} (h : (2 : ℚ) ^ x ≤ q) :
    x ≤ Int.log 2 q := by
  have := (Int.zpow_le_iff_le_log (b := 2) (by norm_num) hq (x := x)).mp (by simpa using h)
  exact this

/-- A value `a * 2 ^ k` with `a < 2 ^ p` is representable: rounding keeps it. -/
theorem round_fp_representable (p : ℕ) (a : ℕ) (k : ℤ) (ha : 0 < a) (hap : a < 2 ^ p) :
    round_fp p ((a : ℚ) * 2 ^ k) = (a : ℚ) * 2 ^ k := by
  have ha' : (0 : ℚ) < a := by exact_mod_cast ha
  have hq : (0 : ℚ) < (a : ℚ) * 2 ^ k := by positivity
  have hlt : (a : ℚ) * 2 ^ k < 2 ^ ((p : ℤ) + k) := by
    rw [zpow_add₀ (by norm_num : (2 : ℚ) ≠ 0)]
    have : (a : ℚ) < 2 ^ (p : ℤ) := by
      rw [zpow_natCast]
      exact_mod_cast hap
    exact mul_lt_mul_of_pos_right this (by positivity)
  have he := log_lt_of_lt_two_zpow hq hlt
  obtain ⟨d, hd⟩ : ∃ d : ℕ, (d : ℤ) = k - (Int.log 2 ((a : ℚ) * 2 ^ k) + 1 - (p : ℤ)) :=
    ⟨(k - (Int.log 2 ((a : ℚ) * 2 ^ k) + 1 - (p : ℤ))).toNat, Int.toNat_of_nonneg (by omega)⟩
  have hgrid : (((a * 2 ^ d : ℕ) : ℤ) : ℚ) * ulp p ((a : ℚ) * 2 ^ k) = (a : ℚ) * 2 ^ k := by
    unfold ulp
    push_cast
    rw [mul_assoc, ← zpow_natCast, ← zpow_add₀ (by norm_num : (2 : ℚ) ≠ 0), hd]
    congr 2
    ring
  apply le_antisymm
  · have := round_fp_le_of_le_grid p hq ((a * 2 ^ d : ℕ) : ℤ) (le_of_eq hgrid.symm)
    rwa [hgrid] at this
  · have := le_round_fp_of_grid_le p hq ((a * 2 ^ d : ℕ) : ℤ) (le_of_eq hgrid)
    rwa [hgrid] at this

/-- Zero rounds to zero. -/
theorem round_fp_zero (p : ℕ) : round_fp p 0 = 0 := by
  simp only [round_fp, if_pos]

/-- Rounding a positive value gives at least the power of two below it. -/
theorem two_zpow_log_le_round_fp (p : ℕ) (hp : 0 < p) {q : ℚ} (hq : 0 < q) :
    (2 : ℚ) ^ Int.log 2 q ≤ round_fp p q := by
  have hgrid : (((2 ^ (p - 1) : ℕ) : ℤ) : ℚ) * ulp p q = 2 ^ Int.log 2 q := by
    unfold ulp
    push_cast
    rw [← zpow_natCast, ← zpow_add₀ (by norm_num : (2 : ℚ) ≠ 0)]
    congr 1
    have : ((p - 1 : ℕ) : ℤ) = (p : ℤ) - 1 := by omega
    rw [this]
    ring
  have := le_round_fp_of_grid_le p hq ((2 ^ (p - 1) : ℕ) : ℤ)
    (by rw [hgrid]; exact two_zpow_log_le hq)
  rwa [hgrid] at this

/-- Rounding a positive value gives at most the power of two above it. -/
theorem round_fp_le_two_zpow_log_succ (p : ℕ) {q : ℚ} (hq : 0 < q) :
    round_fp p q ≤ (2 : ℚ) ^ (Int.log 2 q + 1) := by
  have hgrid : (((2 ^ p : ℕ) : ℤ) : ℚ) * ulp p q = 2 ^ (Int.log 2 q + 1) := by
    unfold ulp
    push_cast
    rw [← zpow_natCast, ← zpow_add₀ (by norm_num : (2 : ℚ) ≠ 0)]
    congr 1
    ring
  have := round_fp_le_of_le_grid p hq ((2 ^ p : ℕ) : ℤ)
    (by rw [hgrid]; exact (lt_two_zpow_log_succ q).le)
  rwa [hgrid] at this

/-- A positive value rounds to a positive value. -/
theorem round_fp_pos (p : ℕ) (hp : 0 < p) {q : ℚ} (hq : 0 < q) : 0 < round_fp p q :=
  lt_of_lt_of_le (by positivity) (two_zpow_log_le_round_fp p hp hq)

/-- A non-negative value rounds to a non-negative value. -/
theorem round_fp_nonneg (p : ℕ) (hp : 0 < p) {q : ℚ} (hq : 0 ≤ q) : 0 ≤ round_fp p q := by
  rcases eq_or_lt_of_le hq with h | h
  · rw [← h, round_fp_zero]
  · exact (round_fp_pos p hp h).le

/-- Rounding is monotone on the positive values. -/
theorem round_fp_mono (p : ℕ) (hp : 0 < p) {q₁ q₂ : ℚ} (h₁ : 0 < q₁) (h : q₁ ≤ q₂) :
    round_fp p q₁ ≤ round_fp p q₂ := by
  have h₂ : 0 < q₂ := lt_of_lt_of_le h₁ h
  have he : Int.log 2 q₁ ≤ Int.log 2 q₂ := Int.log_mono_right h₁ h
  rcases lt_or_eq_of_le he with hlt | heq
  · calc round_fp p q₁ ≤ (2 : ℚ) ^ (Int.log 2 q₁ + 1) := round_fp_le_two_zpow_log_succ p h₁
      _ ≤ (2 : ℚ) ^ Int.log 2 q₂ := zpow_le_zpow_right₀ (by norm_num) (by omega)
      _ ≤ round_fp p q₂ := two_zpow_log_le_round_fp p hp h₂
  · have hu : ulp p q₁ = ulp p q₂ := by unfold ulp; rw [heq]
    rw [round_fp_of_pos p h₁, round_fp_of_pos p h₂, hu]
    have hpos := ulp_pos p q₂
    have hm : q₁ / ulp p q₂ ≤ q₂ / ulp p q₂ := div_le_div_of_nonneg_right h hpos.le
    have := round_half_even_mono hm
    have hc : ((round_half_even (q₁ / ulp p q₂) : ℤ) : ℚ)
        ≤ ((round_half_even (q₂ / ulp p q₂) : ℤ) : ℚ) := by exact_mod_cast this
    exact mul_le_mul_of_nonneg_right hc hpos.le

/-- A value at most 1 rounds to at most 1. -/
theorem round_fp_le_one (p : ℕ) (hp : 0 < p) {q : ℚ} (hq : q ≤ 1) : round_fp p q ≤ 1 := by
  rcases le_or_lt q 0 with h0 | h0
  · rcases eq_or_lt_of_le h0 with h | h
    · rw [h, round_fp_zero]; norm_num
    · simp only [round_fp, if_neg (ne_of_lt h), if_neg (not_lt.mpr h0)]
      have h1 := round_fp_pos p hp (neg_pos.mpr h)
      rw [round_fp_of_pos p (neg_pos.mpr h)] at h1
      linarith
  · have := round_fp_mono p hp h0 hq
    have h1 : round_fp p 1 = 1 := by
      have := round_fp_representable p 1 0 (by norm_num) (Nat.one_lt_two_pow (by omega))
      simpa using this
    rwa [h1] at this

/-- A value at most `1 - 2 ^ (-p)`, the largest representable value below 1,
rounds to at most that value. -/
theorem round_fp_le_pred_one (p : ℕ) (hp : 0 < p) {q : ℚ} (h0 : 0 ≤ q)
    (hq : q ≤ 1 - 1 / 2 ^ p) : round_fp p q ≤ 1 - 1 / 2 ^ p := by
  rcases eq_or_lt_of_le h0 with h | h
  · rw [← h, round_fp_zero]
    have : (1 : ℚ) / 2 ^ p ≤ 1 := by
      rw [div_le_one (by positivity)]
      exact one_le_pow₀ (by norm_num)
    linarith
  · have hrep : round_fp p (((2 ^ p - 1 : ℕ) : ℚ) * 2 ^ (-(p : ℤ)))
        = ((2 ^ p - 1 : ℕ) : ℚ) * 2 ^ (-(p : ℤ)) :=
      round_fp_representable p (2 ^ p - 1) (-(p : ℤ))
        (by have := Nat.one_lt_two_pow (n := p) (by omega); omega)
        (by have := Nat.one_lt_two_pow (n := p) (by omega); omega)
    have hval : ((2 ^ p - 1 : ℕ) : ℚ) * 2 ^ (-(p : ℤ)) = 1 - 1 / 2 ^ p := by
      have h1 : 1 ≤ 2 ^ p := Nat.one_le_two_pow
      rw [Nat.cast_sub h1, zpow_neg, zpow_natCast]
      push_cast
      field_simp
    rw [hval] at hrep
    have := round_fp_mono p hp h hq
    rwa [hrep] at this

/-- An integer of at most 24 bits, and `2 ^ 24`, are binary32 values. -/
theorem round_fp_natCast (n : ℕ) (h : n ≤ 2 ^ 24) : round_fp 24 (n : ℚ) = n := by
  rcases Nat.eq_zero_or_pos n with h0 | h0
  · rw [h0, Nat.cast_zero, round_fp_zero]
  · rcases lt_or_eq_of_le h with hlt | heq
    · have := round_fp_representable 24 n 0 h0 hlt
      simpa using this
    · have := round_fp_representable 24 1 24 (by norm_num) (by norm_num)
      rw [heq]
      norm_num at this ⊢
      exact this

/-- The value of `animation_float` when the millisecond count is not zero. -/
theorem animation_float_of_ne_zero (now duration : ℚ)
    (h : to_unsigned 32 (round_fp 24 (duration * 1000)) ≠ 0) :
    animation_float now duration =
      some (round_fp 24
        (round_fp 24 ((to_unsigned 64 (round_fp 53 (now * 1000))
            % to_unsigned 32 (round_fp 24 (duration * 1000)) : ℕ) : ℚ)
          / round_fp 24 (to_unsigned 32 (round_fp 24 (duration * 1000)) : ℚ))) := by
  simp only [animation_float, if_neg h]

/-- Lines 391 to 393 on the two integers: the rounded quotient is in `[0, 1]`,
and below 1 when the divisor has at most 24 bits. -/
theorem rounded_quotient_range (t d : ℕ) (hd : d ≠ 0) :
    0 ≤ round_fp 24 (round_fp 24 ((t % d : ℕ) : ℚ) / round_fp 24 (d : ℚ))
      ∧ round_fp 24 (round_fp 24 ((t % d : ℕ) : ℚ) / round_fp 24 (d : ℚ)) ≤ 1
      ∧ (d ≤ 2 ^ 24 →
          round_fp 24 (round_fp 24 ((t % d : ℕ) : ℚ) / round_fp 24 (d : ℚ)) < 1) := by
  have hdpos : 0 < d := Nat.pos_of_ne_zero hd
  have hdq : (0 : ℚ) < (d : ℚ) := by exact_mod_cast hdpos
  have hrem : t % d < d := Nat.mod_lt _ hdpos
  have hremq : ((t % d : ℕ) : ℚ) ≤ (d : ℚ) := by exact_mod_cast hrem.le
  have hy : 0 < round_fp 24 (d : ℚ) := round_fp_pos 24 (by norm_num) hdq
  have hx0 : 0 ≤ round_fp 24 ((t % d : ℕ) : ℚ) :=
    round_fp_nonneg 24 (by norm_num) (Nat.cast_nonneg _)
  have hxy : round_fp 24 ((t % d : ℕ) : ℚ) ≤ round_fp 24 (d : ℚ) := by
    rcases Nat.eq_zero_or_pos (t % d) with h0 | h0
    · rw [h0, Nat.cast_zero, round_fp_zero]
      exact hy.le
    · exact round_fp_mono 24 (by norm_num) (by exact_mod_cast h0) hremq
  have hq0 : 0 ≤ round_fp 24 ((t % d : ℕ) : ℚ) / round_fp 24 (d : ℚ) := div_nonneg hx0 hy.le
  have hq1 : round_fp 24 ((t % d : ℕ) : ℚ) / round_fp 24 (d : ℚ) ≤ 1 :=
    (div_le_one hy).mpr hxy
  refine ⟨round_fp_nonneg 24 (by norm_num) hq0, round_fp_le_one 24 (by norm_num) hq1, ?_⟩
  intro hsmall
  rw [round_fp_natCast d hsmall, round_fp_natCast (t % d) (le_trans hrem.le hsmall)]
  have hle : ((t % d : ℕ) : ℚ) / (d : ℚ) ≤ 1 - 1 / 2 ^ 24 := by
    rw [div_le_iff₀ hdq]
    have h1 : ((t % d : ℕ) : ℚ) + 1 ≤ (d : ℚ) := by exact_mod_cast hrem
    have h2 : (d : ℚ) ≤ 2 ^ 24 := by exact_mod_cast hsmall
    nlinarith
  have := round_fp_le_pred_one 24 (by norm_num)
    (div_nonneg (Nat.cast_nonneg _) hdq.le) hle
  have hlt : (1 : ℚ) - 1 / 2 ^ 24 < 1 := by norm_num
  exact lt_of_le_of_lt this hlt

/-- The binary exponent of a positive value between two consecutive powers of 2. -/
theorem log_two_eq {q : ℚ} (e : ℤ) (h1 : (2 : ℚ) ^ e ≤ q) (h2 : q < (2 : ℚ) ^ (e + 1)) :
    Int.log 2 q = e := by
  have hq : 0 < q := lt_of_lt_of_le (by positivity) h1
  have ha := le_log_of_two_zpow_le hq h1
  have hb := log_lt_of_lt_two_zpow hq h2
  omega

/-- The remainder 32767999 lies half-way between the binary32 values 32767998
and 32768000; the tie goes to the even significand, 32768000. -/
theorem round_fp_32767999 : round_fp 24 (32767999 : ℚ) = 32768000 := by
  have he : Int.log 2 (32767999 : ℚ) = 24 := log_two_eq 24 (by norm_num) (by norm_num)
  have hu : ulp 24 (32767999 : ℚ) = 2 := by
    unfold ulp
    rw [he]
    norm_num
  have hf : ⌊(32767999 : ℚ) / 2⌋ = 16383999 := by
    rw [Int.floor_eq_iff]
    constructor <;> norm_num
  have hr : round_half_even ((32767999 : ℚ) / 2) = 16384000 := by
    simp only [round_half_even, hf]
    norm_num
  rw [round_fp_of_pos 24 (by norm_num), hu, hr]
  norm_num

/-! ## Theorems -/


/-- Claim C1. Over the reals, `mat4f_identity` is a two-sided neutral element
of `mat4f_multiply`: `multiply(identity, A) = A` and `multiply(A, identity) = A`
for every matrix `A`. -/
theorem mat4f_multiply_identity (A : mat4f ℝ) :
    mat4f_multiply mat4f_identity A = A ∧ mat4f_multiply A mat4f_identity = A := by
  constructor <;> ext <;> simp [mat4f_multiply, mat4f_identity]

/-- Claim C2. Over the reals, `mat4f_multiply` is associative. -/
theorem mat4f_multiply_assoc (A B C : mat4f ℝ) :
    mat4f_multiply (mat4f_multiply A B) C = mat4f_multiply A (mat4f_multiply B C) := by
  ext <;> simp only [mat4f_multiply] <;> ring

/-- Claim C3. The function `mat4f_multiply` is the standard matrix product under the
column-major field layout: entry `(i, j)` of `multiply(a, b)` (field
`x<i><j>`) is the sum over `k` of `a.x<i><k> * b.x<k><j>`, and that entry is
the component at offset `4 * j + i` of the memory image given by `mat4f_gl`. -/
theorem mat4f_multiply_entry (a b : mat4f ℝ) (i j : Fin 4) :
    (mat4f_multiply a b).entry i j = ∑ k : Fin 4, a.entry i k * b.entry k j
      ∧ (mat4f_gl (mat4f_multiply a b))[4 * j.val + i.val]? =
        some (∑ k : Fin 4, a.entry i k * b.entry k j) := by
  rw [Fin.sum_univ_four]
  fin_cases i <;> fin_cases j <;> exact ⟨rfl, rfl⟩

/-- Claim C4. For every animation progress `t`, the transform built in `render`
(starting from the identity and repeatedly multiplying on the right) is the
product perspective × translation(0,0,-3) × rotate_x(0.15π) × rotate_y(2π·t),
in that order, both as nested `mat4f_multiply` and as a product of matrices;
and at every time `now` the call `animation(4)` returns a progress `p` and
`render` uses the transform for `t = p`. -/
theorem render_transform_eq_product (t : ℝ) (now : ℚ) :
    render_transform Real.cos Real.sin Real.pi t =
        mat4f_multiply mat4f_perspective
          (mat4f_multiply (mat4f_translation 0 0 (-3))
            (mat4f_multiply (mat4f_rotate_x Real.cos Real.sin (0.15 * Real.pi))
              (mat4f_rotate_y Real.cos Real.sin (2 * Real.pi * t))))
      ∧ (render_transform Real.cos Real.sin Real.pi t).toMatrix =
        (mat4f_perspective : mat4f ℝ).toMatrix
          * (mat4f_translation (0 : ℝ) 0 (-3)).toMatrix
          * (mat4f_rotate_x Real.cos Real.sin (0.15 * Real.pi)).toMatrix
          * (mat4f_rotate_y Real.cos Real.sin (2 * Real.pi * t)).toMatrix
      ∧ ∃ p : ℚ, animation now 4 = some p ∧
          render Real.cos Real.sin Real.pi now =
            some (render_transform Real.cos Real.sin Real.pi (p : ℝ)) := by
  refine ⟨?_, ?_, ?_⟩
  · simp only [render_transform, identity_multiply, multiply_assoc]
  · simp only [render_transform, identity_multiply, toMatrix_multiply]
  · have h := animation_of_ne_zero now 4 (by rw [ms_duration_four]; norm_num)
    exact ⟨_, h, by rw [render, h]⟩

/-- Claim C5. At animation progress 0 the spin matrix `rotate_y(2π·0)` is the
identity and the transform built in `render` is
perspective × translation(0,0,-3) × rotate_x(0.15π); this is the transform
`render` uses when the time source reads 0. -/
theorem render_transform_at_zero :
    mat4f_rotate_y Real.cos Real.sin (2 * Real.pi * 0) = mat4f_identity
      ∧ render_transform Real.cos Real.sin Real.pi 0 =
        mat4f_multiply mat4f_perspective
          (mat4f_multiply (mat4f_translation 0 0 (-3))
            (mat4f_rotate_x Real.cos Real.sin (0.15 * Real.pi)))
      ∧ render Real.cos Real.sin Real.pi 0 =
        some (mat4f_multiply mat4f_perspective
          (mat4f_multiply (mat4f_translation 0 0 (-3))
            (mat4f_rotate_x Real.cos Real.sin (0.15 * Real.pi)))) := by
  have hy : mat4f_rotate_y Real.cos Real.sin (2 * Real.pi * 0) = mat4f_identity :=
    rotate_y_of_cos_sin Real.cos Real.sin _ (by simp) (by simp)
  have ht : render_transform Real.cos Real.sin Real.pi 0 =
      mat4f_multiply mat4f_perspective
        (mat4f_multiply (mat4f_translation 0 0 (-3))
          (mat4f_rotate_x Real.cos Real.sin (0.15 * Real.pi))) := by
    simp only [render_transform, hy, identity_multiply, multiply_identity, multiply_assoc]
  refine ⟨hy, ht, ?_⟩
  have h := animation_of_ne_zero 0 4 (by rw [ms_duration_four]; norm_num)
  have h0 : to_unsigned 64 ((0 : ℚ) * 1000) = 0 :=
    to_unsigned_eq 64 _ 0 (by norm_num) (by norm_num) (by norm_num)
  rw [h0] at h
  rw [render, h]
  simp only [Nat.zero_mod, Nat.cast_zero, zero_div, Rat.cast_zero]
  rw [ht]

/-- Claim C6. The matrices `mat4f_rotate_x(0)`, `mat4f_rotate_y(0)` and
`mat4f_rotate_z(0)` are each equal to `mat4f_identity`. -/
theorem mat4f_rotate_zero :
    mat4f_rotate_x Real.cos Real.sin 0 = mat4f_identity
      ∧ mat4f_rotate_y Real.cos Real.sin 0 = mat4f_identity
      ∧ mat4f_rotate_z Real.cos Real.sin 0 = mat4f_identity := by
  refine ⟨?_, ?_, ?_⟩ <;> ext <;>
    simp [mat4f_rotate_x, mat4f_rotate_y, mat4f_rotate_z, mat4f_identity]

/-- Claim C7. For every angle `theta`, over the reals,
`mat4f_multiply(mat4f_rotate_z(theta), mat4f_rotate_z(-theta))` is
`mat4f_identity`. -/
theorem mat4f_rotate_z_neg (theta : ℝ) :
    mat4f_multiply (mat4f_rotate_z Real.cos Real.sin theta)
      (mat4f_rotate_z Real.cos Real.sin (-theta)) = mat4f_identity := by
  have h := Real.cos_sq_add_sin_sq theta
  ext <;>
    simp only [mat4f_multiply, mat4f_rotate_z, mat4f_identity, Real.cos_neg, Real.sin_neg] <;>
    first
      | ring1
      | linear_combination h

/-- Claim C8, counterexample. Two positive durations with a non-negative elapsed
time at which `animation`, with its rounding (`animation_float`), returns no
`p` with `0 <= p < 1`: at elapsed time
32767.99951171875 s and duration 32768 s the remainder 32767999 is rounded to
the `float` 32768000 and the result is exactly 1; at duration 0.00048828125 s
the millisecond count is 0 and the remainder has no value. -/
theorem animation_float_not_below_one :
    (0 : ℚ) ≤ 67108863 / 2048 ∧ (0 : ℚ) < 32768
      ∧ animation_float (67108863 / 2048) 32768 = some 1
      ∧ (0 : ℚ) ≤ 1 ∧ (0 : ℚ) < 1 / 2048
      ∧ animation_float 1 (1 / 2048) = none := by
  refine ⟨by norm_num, by norm_num, ?_, by norm_num, by norm_num, ?_⟩
  · have ht : round_fp 53 ((67108863 / 2048 : ℚ) * 1000) = 8388607875 / 256 := by
      have := round_fp_representable 53 8388607875 (-8) (by norm_num) (by norm_num)
      norm_num at this ⊢
      exact this
    have hd : round_fp 24 ((32768 : ℚ) * 1000) = 32768000 := by
      have := round_fp_representable 24 125 18 (by norm_num) (by norm_num)
      norm_num at this ⊢
      exact this
    have hmt : to_unsigned 64 (8388607875 / 256 : ℚ) = 32767999 :=
      to_unsigned_eq 64 _ 32767999 (by norm_num) (by norm_num) (by norm_num)
    have hmd : to_unsigned 32 (32768000 : ℚ) = 32768000 :=
      to_unsigned_eq 32 _ 32768000 (by norm_num) (by norm_num) (by norm_num)
    have hy : round_fp 24 ((32768000 : ℕ) : ℚ) = 32768000 := by
      have := round_fp_representable 24 125 18 (by norm_num) (by norm_num)
      norm_num at this ⊢
      exact this
    have h1 : round_fp 24 (1 : ℚ) = 1 := by
      have := round_fp_representable 24 1 0 (by norm_num) (by norm_num)
      simpa using this
    have hrem : (32767999 % 32768000 : ℕ) = 32767999 := by norm_num
    rw [animation_float_of_ne_zero _ _ (by rw [hd, hmd]; norm_num), ht, hd, hmt, hmd, hrem, hy]
    have hx : round_fp 24 ((32767999 : ℕ) : ℚ) = 32768000 := by
      have := round_fp_32767999
      norm_num at this ⊢
      exact this
    rw [hx]
    norm_num
    exact h1
  · have hd : round_fp 24 ((1 / 2048 : ℚ) * 1000) = 125 / 256 := by
      have := round_fp_representable 24 125 (-8) (by norm_num) (by norm_num)
      norm_num at this ⊢
      exact this
    have hmd : to_unsigned 32 (125 / 256 : ℚ) = 0 :=
      to_unsigned_eq 32 _ 0 (by norm_num) (by norm_num) (by norm_num)
    simp only [animation_float, hd, hmd, if_pos]

/-- Claim C8, amended. For every non-negative elapsed time and every positive
duration whose millisecond count `ms_duration` is not zero,
`animation(duration)` returns a value `p` with `0 <= p <= 1`, and `p < 1`
whenever `ms_duration <= 2 ^ 24`. -/
theorem animation_float_range (now duration : ℚ) (_h0 : 0 ≤ now) (_hd : 0 < duration)
    (hms : to_unsigned 32 (round_fp 24 (duration * 1000)) ≠ 0) :
    ∃ p : ℚ, animation_float now duration = some p ∧ 0 ≤ p ∧ p ≤ 1
      ∧ (to_unsigned 32 (round_fp 24 (duration * 1000)) ≤ 2 ^ 24 → p < 1) :=
  ⟨_, animation_float_of_ne_zero now duration hms,
    rounded_quotient_range (to_unsigned 64 (round_fp 53 (now * 1000))) _ hms⟩

/-- Claim C8, witness: elapsed time 1 s, duration 4 s. -/
theorem animation_float_range_witness :
    (0 : ℚ) ≤ 1 ∧ (0 : ℚ) < 4 ∧ to_unsigned 32 (round_fp 24 ((4 : ℚ) * 1000)) ≠ 0
      ∧ ∃ p : ℚ, animation_float 1 4 = some p ∧ 0 ≤ p ∧ p ≤ 1
        ∧ (to_unsigned 32 (round_fp 24 ((4 : ℚ) * 1000)) ≤ 2 ^ 24 → p < 1) := by
  have hd : round_fp 24 ((4 : ℚ) * 1000) = 4000 := by
    have := round_fp_representable 24 4000 0 (by norm_num) (by norm_num)
    norm_num at this ⊢
    exact this
  have hmd : to_unsigned 32 (4000 : ℚ) = 4000 :=
    to_unsigned_eq 32 _ 4000 (by norm_num) (by norm_num) (by norm_num)
  have hne : to_unsigned 32 (round_fp 24 ((4 : ℚ) * 1000)) ≠ 0 := by
    rw [hd, hmd]
    norm_num
  exact ⟨by norm_num, by norm_num, hne,
    animation_float_range 1 4 (by norm_num) (by norm_num) hne⟩

/-- Claim C9, counterexample. At elapsed time 0 and the positive duration
0.0005 s the millisecond count of the duration is 0 and `animation` does not
return 0: it has no value. -/
theorem animation_zero_half_ms_no_value :
    (0 : ℚ) < 1 / 2000 ∧ animation 0 (1 / 2000) = none
      ∧ animation 0 (1 / 2000) ≠ some 0 := by
  have h : animation 0 (1 / 2000) = none := animation_of_eq_zero 0 _ ms_duration_half_ms
  refine ⟨by norm_num, h, ?_⟩
  rw [h]
  exact fun hp => Option.noConfusion hp

/-- Claim C9, amended. When the elapsed time is 0, `animation(d)` returns 0 for
every duration `d > 0` whose millisecond count (`d * 1000` converted to a
32-bit unsigned integer) is not zero. -/
theorem animation_at_zero (d : ℚ) (_hd : 0 < d) (hms : to_unsigned 32 (d * 1000) ≠ 0) :
    animation 0 d = some 0 := by
  have h0 : to_unsigned 64 ((0 : ℚ) * 1000) = 0 :=
    to_unsigned_eq 64 _ 0 (by norm_num) (by norm_num) (by norm_num)
  rw [animation_of_ne_zero 0 d hms, h0]
  simp

/-- Claim C9, witness: duration 4 s. -/
theorem animation_at_zero_witness :
    (0 : ℚ) < 4 ∧ to_unsigned 32 ((4 : ℚ) * 1000) ≠ 0 ∧ animation 0 4 = some 0 :=
  ⟨by norm_num, by rw [ms_duration_four]; norm_num,
    animation_at_zero 4 (by norm_num) (by rw [ms_duration_four]; norm_num)⟩

/-- Claim C11. The list `triangle_indices` has exactly 36 entries, which is
`triangles * 3` with 12 triangles; every entry is in the range 0..7; and in
each of the 12 consecutive triples the three indices are pairwise distinct. -/
theorem triangle_indices_well_formed :
    triangle_indices.length = 36 ∧ triangle_indices.length = triangles * 3 ∧ triangles = 12
      ∧ (∀ i ∈ triangle_indices, 0 ≤ i ∧ i ≤ 7)
      ∧ ∀ k, k < triangles →
          triangle_indices.getD (3 * k) 0 ≠ triangle_indices.getD (3 * k + 1) 0
          ∧ triangle_indices.getD (3 * k) 0 ≠ triangle_indices.getD (3 * k + 2) 0
          ∧ triangle_indices.getD (3 * k + 1) 0 ≠ triangle_indices.getD (3 * k + 2) 0 := by
  refine ⟨by decide, by decide, by decide, by decide, ?_⟩
  decide

/-- Claim C15. The index list describes 6 faces of 2 triangles each: for each of
the 6 consecutive pairs of triangles, the two triangles share exactly two
vertices; their distinct vertices are four, at four different positions with
all coordinates `0.5` or `-0.5`, and all four agree on one coordinate (they
are the four corners of one face of the cube); the two shared vertices differ
in both other coordinates (they are opposite corners of that face); and two
different pairs never lie on the same face. -/
theorem triangle_pairs_are_faces :
    (∀ f, f < 6 →
        (shared f).length = 2
        ∧ ((triangle (2 * f + 1)).filter (fun v => v ∈ triangle (2 * f))).length = 2
        ∧ (corners f).length = 4)
      ∧ (∀ f, f < 6 → ((corners f).map position).Nodup)
      ∧ (∀ f, f < 6 → ∀ v ∈ corners f, ∀ a : Fin 3,
          coord (position v) a = 0.5 ∨ coord (position v) a = -0.5)
      ∧ (∀ f, f < 6 → ∃ a : Fin 3, ∃ c ∈ [(0.5 : ℚ), -0.5], on_face f a c
          ∧ ∀ b : Fin 3, b ≠ a →
              coord (position ((shared f).getD 0 0)) b
                ≠ coord (position ((shared f).getD 1 0)) b)
      ∧ ∀ f, f < 6 → ∀ g, g < 6 → f ≠ g →
          ¬ ∃ a : Fin 3, ∃ c ∈ [(0.5 : ℚ), -0.5], on_face f a c ∧ on_face g a c := by
  refine ⟨?_, ?_, ?_, ?_, ?_⟩
  · decide
  · decide!
  · decide!
  · decide!
  · decide!

/-- Claim C19. Every one of the 12 triangles is wound counter-clockwise as seen
from outside the cube: for each triple `(i, j, k)` the cross product
`(v_j - v_i) × (v_k - v_i)` of the positions has a strictly positive dot
product with the centroid of the triangle. -/
theorem triangles_wound_outward :
    ∀ n, n < triangles →
      0 < dot
        (cross
          (vsub (position ((triangle n).getD 1 0)) (position ((triangle n).getD 0 0)))
          (vsub (position ((triangle n).getD 2 0)) (position ((triangle n).getD 0 0))))
        (centroid (position ((triangle n).getD 0 0)) (position ((triangle n).getD 1 0))
          (position ((triangle n).getD 2 0))) := by
  decide!

/-- Claim C19, witness: triangle 0, the first triangle of the front face. -/
theorem triangles_wound_outward_witness :
    0 < triangles
      ∧ 0 < dot
        (cross
          (vsub (position ((triangle 0).getD 1 0)) (position ((triangle 0).getD 0 0)))
          (vsub (position ((triangle 0).getD 2 0)) (position ((triangle 0).getD 0 0))))
        (centroid (position ((triangle 0).getD 0 0)) (position ((triangle 0).getD 1 0))
          (position ((triangle 0).getD 2 0))) :=
  ⟨by decide, triangles_wound_outward 0 (by decide)⟩

/-- Claim C12. The matrix `mat4f_perspective()` is the standard OpenGL frustum
matrix for left = -0.5, right = 0.5, bottom = -0.5, top = 0.5, near = 1,
far = 5; its columns are (2,0,0,0), (0,2,0,0), (0,0,-3/2,-1) and
(0,0,-5/2,0). -/
theorem mat4f_perspective_eq_frustum :
    (mat4f_perspective : mat4f ℝ) = frustum_spec (-0.5) 0.5 (-0.5) 0.5 1 5
      ∧ mat4f_gl (mat4f_perspective : mat4f ℝ) =
        [2, 0, 0, 0,
         0, 2, 0, 0,
         0, 0, -3 / 2, -1,
         0, 0, -5 / 2, 0] := by
  constructor
  · ext <;> simp only [mat4f_perspective, frustum_spec] <;> norm_num
  · simp only [mat4f_gl, mat4f_perspective]
    norm_num

/-- Claim C13. For every angle `theta`, the rotation constructors applied to a
column vector are the standard right-handed rotations: `rotate_z` maps
`(x,y,z,1)` to `(x cos θ − y sin θ, x sin θ + y cos θ, z, 1)`, `rotate_x` maps
it to `(x, y cos θ − z sin θ, y sin θ + z cos θ, 1)`, and `rotate_y` maps it
to `(x cos θ + z sin θ, y, −x sin θ + z cos θ, 1)`. -/
theorem mat4f_rotate_mulVec (theta x y z : ℝ) :
    (mat4f_rotate_z Real.cos Real.sin theta).toMatrix.mulVec ![x, y, z, 1] =
        ![x * Real.cos theta - y * Real.sin theta,
          x * Real.sin theta + y * Real.cos theta, z, 1]
      ∧ (mat4f_rotate_x Real.cos Real.sin theta).toMatrix.mulVec ![x, y, z, 1] =
        ![x, y * Real.cos theta - z * Real.sin theta,
          y * Real.sin theta + z * Real.cos theta, 1]
      ∧ (mat4f_rotate_y Real.cos Real.sin theta).toMatrix.mulVec ![x, y, z, 1] =
        ![x * Real.cos theta + z * Real.sin theta, y,
          -x * Real.sin theta + z * Real.cos theta, 1] := by
  refine ⟨?_, ?_, ?_⟩ <;> rw [toMatrix_mulVec] <;>
    simp only [mat4f_rotate_z, mat4f_rotate_x, mat4f_rotate_y] <;>
    funext i <;> fin_cases i <;> simp <;> ring

/-- Claim C14. The matrices `mat4f_translation` and `mat4f_scale` are the
standard affine matrices: `translation(x,y,z)` applied to `(px,py,pz,1)` gives
`(px+x, py+y, pz+z, 1)`, `scale(x,y,z)` gives `(x·px, y·py, z·pz, 1)`, and the
translation offsets are the fields `x14`, `x24`, `x34` (fourth column). -/
theorem mat4f_translation_scale_mulVec (x y z px py pz : ℝ) :
    (mat4f_translation x y z).toMatrix.mulVec ![px, py, pz, 1] = ![px + x, py + y, pz + z, 1]
      ∧ (mat4f_scale x y z).toMatrix.mulVec ![px, py, pz, 1] = ![x * px, y * py, z * pz, 1]
      ∧ (mat4f_translation x y z).x14 = x
      ∧ (mat4f_translation x y z).x24 = y
      ∧ (mat4f_translation x y z).x34 = z
      ∧ (mat4f_gl (mat4f_translation x y z)).drop 12 = [x, y, z, 1] := by
  refine ⟨?_, ?_, rfl, rfl, rfl, rfl⟩
  · rw [toMatrix_mulVec]
    simp [mat4f_translation]
  · rw [toMatrix_mulVec]
    simp [mat4f_scale]

/-- Claim C16. The rotation constructors are periodic: for every real `theta`,
`mat4f_rotate_x/y/z(theta + 2π) = mat4f_rotate_x/y/z(theta)`; hence the spin
matrix `rotate_y(2π·t)` and the transform built in `render` take the same
value at progress `t = 1` as at `t = 0`. -/
theorem mat4f_rotate_periodic (theta : ℝ) :
    mat4f_rotate_x Real.cos Real.sin (theta + 2 * Real.pi)
        = mat4f_rotate_x Real.cos Real.sin theta
      ∧ mat4f_rotate_y Real.cos Real.sin (theta + 2 * Real.pi)
        = mat4f_rotate_y Real.cos Real.sin theta
      ∧ mat4f_rotate_z Real.cos Real.sin (theta + 2 * Real.pi)
        = mat4f_rotate_z Real.cos Real.sin theta
      ∧ mat4f_rotate_y Real.cos Real.sin (2 * Real.pi * 1)
        = mat4f_rotate_y Real.cos Real.sin (2 * Real.pi * 0)
      ∧ render_transform Real.cos Real.sin Real.pi 1
        = render_transform Real.cos Real.sin Real.pi 0 := by
  have hy : mat4f_rotate_y Real.cos Real.sin (2 * Real.pi * 1)
      = mat4f_rotate_y Real.cos Real.sin (2 * Real.pi * 0) := by
    simp [mat4f_rotate_y]
  refine ⟨?_, ?_, ?_, hy, ?_⟩
  · simp only [mat4f_rotate_x, Real.cos_add_two_pi, Real.sin_add_two_pi]
  · simp only [mat4f_rotate_y, Real.cos_add_two_pi, Real.sin_add_two_pi]
  · simp only [mat4f_rotate_z, Real.cos_add_two_pi, Real.sin_add_two_pi]
  · simp only [render_transform, hy]

/-- Claim C17. Over any sequence of calls of `update_fps` (from any value of the
static variables, for any time readings, in particular non-decreasing ones),
any two consecutive title updates are more than 0.25 seconds apart, so that
five consecutive updates span more than one second; and each update resets
the frame counter to 0 and the time stamp to the current time. -/
theorem update_fps_rate (s : fps_state) (nows : List ℚ) :
    List.Chain' (fun a b : ℚ => b - a > 0.25) (title_update_times s nows)
      ∧ (∀ i, i + 4 < (title_update_times s nows).length →
          (title_update_times s nows).getD (i + 4) 0
            - (title_update_times s nows).getD i 0 > 1)
      ∧ ∀ now : ℚ, (update_fps s now).2 ≠ none →
          now - s.last_update_time > 0.25 ∧ (update_fps s now).1 = ⟨now, 0⟩ := by
  have hc : List.Chain' (fun a b : ℚ => b - a > 0.25) (title_update_times s nows) :=
    List.Chain'.tail (l := s.last_update_time :: title_update_times s nows)
      (title_update_times_chain nows s)
  refine ⟨hc, ?_, ?_⟩
  · intro i hi
    have hstep : ∀ j, j + 1 < (title_update_times s nows).length →
        (title_update_times s nows).getD (j + 1) 0
          - (title_update_times s nows).getD j 0 > 0.25 := by
      intro j hj
      have hj0 : j < (title_update_times s nows).length := Nat.lt_of_succ_lt hj
      have h := (List.chain'_iff_get.mp hc) j (by omega)
      simp only [List.get_eq_getElem] at h
      have e1 : (title_update_times s nows).getD (j + 1) 0
          = (title_update_times s nows)[j + 1] := by
        simp [List.getElem?_eq_getElem hj]
      have e0 : (title_update_times s nows).getD j 0 = (title_update_times s nows)[j] := by
        simp [List.getElem?_eq_getElem hj0]
      rw [e1, e0]
      exact h
    have h0 := hstep i (by omega)
    have h1 := hstep (i + 1) (by omega)
    have h2 := hstep (i + 2) (by omega)
    have h3 := hstep (i + 3) (by omega)
    norm_num at h0 h1 h2 h3 ⊢
    linarith
  · intro now hne
    by_cases h : now - s.last_update_time > 0.25
    · exact ⟨h, by simp only [update_fps, if_pos h]⟩
    · exact absurd (by simp only [update_fps, if_neg h]) hne

/-- Claim C18, evaluation of the code. In every run of `main` that reaches the
loop, the vertex array and the shader program are released exactly once,
after the last frame and just before `glfwTerminate`, but the three buffers
`triangles_ebo`, `verticies_vbo` and `colors_vbo` are created once and never
released. -/
theorem main_never_releases_buffers (frames : ℕ) :
    (main true true frames).1 =
        initialize_calls ++ List.replicate frames gl_call.render_frame
          ++ [gl_call.release gl_object.vao, gl_call.release gl_object.shaderProgram,
              gl_call.glfwTerminate]
      ∧ (∀ o : gl_object, o ≠ gl_object.vao → o ≠ gl_object.shaderProgram →
          gl_call.release o ∉ [gl_call.release gl_object.vao,
            gl_call.release gl_object.shaderProgram, gl_call.glfwTerminate])
      ∧ (∀ b ∈ [gl_object.triangles_ebo, gl_object.verticies_vbo, gl_object.colors_vbo],
          (main true true frames).1.count (gl_call.create b) = 1
          ∧ (main true true frames).1.count (gl_call.release b) = 0)
      ∧ (main true true frames).1.count (gl_call.release gl_object.vao) = 1
      ∧ (main true true frames).1.count (gl_call.release gl_object.shaderProgram) = 1 := by
  have hm : (main true true frames).1 =
      initialize_calls ++ List.replicate frames gl_call.render_frame
        ++ [gl_call.release gl_object.vao, gl_call.release gl_object.shaderProgram,
            gl_call.glfwTerminate] := rfl
  refine ⟨hm, ?_, ?_, ?_, ?_⟩
  · intro o h1 h2
    simp [h1, h2]
  · intro b hb
    rw [hm]
    simp only [List.mem_cons, List.mem_singleton, List.not_mem_nil, or_false] at hb
    rcases hb with rfl | rfl | rfl <;>
      simp [initialize_calls, createShaderProgram, List.count_replicate]
  · rw [hm]
    simp [initialize_calls, createShaderProgram, List.count_replicate]
  · rw [hm]
    simp [initialize_calls, createShaderProgram, List.count_replicate]

/-- Claim C20. The cube is never clipped: for every animation progress `t`
(hence every spin angle `2π·t`) and each of the 8 vertices `v`, the clip-space
point `(x, y, z, w)` that the transform of `render` gives for `(v, 1)`
satisfies `w > 0`, `|x| <= w`, `|y| <= w` and `|z| <= w`. -/
theorem cube_never_clipped (t : ℝ) (i : Fin 8) :
    0 < gl_Position Real.cos Real.sin Real.pi t i.val 3
      ∧ |gl_Position Real.cos Real.sin Real.pi t i.val 0|
          ≤ gl_Position Real.cos Real.sin Real.pi t i.val 3
      ∧ |gl_Position Real.cos Real.sin Real.pi t i.val 1|
          ≤ gl_Position Real.cos Real.sin Real.pi t i.val 3
      ∧ |gl_Position Real.cos Real.sin Real.pi t i.val 2|
          ≤ gl_Position Real.cos Real.sin Real.pi t i.val 3 := by
  obtain ⟨ha, hb, hd⟩ := position_sq i
  have ha' : ((position i.val).1 : ℝ) ^ 2 = 1 / 4 := by
    rw [← Rat.cast_pow, ha]
    norm_num
  have hb' : ((position i.val).2.1 : ℝ) ^ 2 = 1 / 4 := by
    rw [← Rat.cast_pow, hb]
    norm_num
  have hd' : ((position i.val).2.2 : ℝ) ^ 2 = 1 / 4 := by
    rw [← Rat.cast_pow, hd]
    norm_num
  have hn := rotate_keeps_norm (Real.cos (2 * Real.pi * t)) (Real.sin (2 * Real.pi * t))
    (Real.cos (0.15 * Real.pi)) (Real.sin (0.15 * Real.pi))
    ((position i.val).1 : ℝ) ((position i.val).2.1 : ℝ) ((position i.val).2.2 : ℝ)
    (Real.cos_sq_add_sin_sq _) (Real.cos_sq_add_sin_sq _)
  rw [ha', hb', hd'] at hn
  obtain ⟨hw, hx, hy, hz⟩ := clip_bounds_of_sq _ _ _ (hn.trans (by norm_num))
  rw [gl_Position, render_transform_mulVec]
  exact ⟨hw, hx, hy, hz⟩

end DrawCube
